import Mathlib

/-!
Verification development for the console core of Serial-Studio
(`src/IO/Console.cpp`).  Qt strings are modelled as `List Char`, byte
arrays as `List Nat` (each element a byte value `< 256`), and the
`Console` object as an explicit record `ConsoleState`.  Qt signal
emissions are modelled as lists of `Event` values returned next to the
new state.
-/

set_option maxHeartbeats 1000000
set_option maxRecDepth 8000

/-- Model of `QString::replace(before, after)` for a one-character pattern
`a`: every occurrence of `a` is replaced by `r`, scanning left to right;
the replacement text is not rescanned. -/
def replace1 (a : Char) (r : List Char) : List Char → List Char
  | [] => []
  | c :: cs => if c = a then r ++ replace1 a r cs else c :: replace1 a r cs

/-- Model of `QString::replace(before, after)` for a two-character pattern
`a b`: leftmost occurrences of the pair are replaced by `r`, scanning
resumes after the replaced portion, and the replacement text is not
rescanned. -/
def replace2 (a b : Char) (r : List Char) : List Char → List Char
  | [] => []
  | [c] => [c]
  | c :: c' :: cs =>
    if c = a ∧ c' = b then r ++ replace2 a b r cs
    else c :: replace2 a b r (c' :: cs)

/-- Decode one UTF-8 sequence: given the first byte `b` and the remaining
input `bs`, return the code point and the input left after the sequence,
or `none` for a malformed head sequence (stray continuation byte,
truncated sequence, overlong form, surrogate, or value above U+10FFFF --
exactly the forms Qt treats as invalid). -/
def decodeOne (b : Nat) (bs : List Nat) : Option (Nat × List Nat) :=
  if b < 0x80 then some (b, bs)
  else if b < 0xC0 then none
  else if b < 0xE0 then
    match bs with
    | b2 :: rest =>
      if (0x80 ≤ b2 ∧ b2 < 0xC0) ∧ 0x80 ≤ (b - 0xC0) * 0x40 + (b2 - 0x80) then
        some ((b - 0xC0) * 0x40 + (b2 - 0x80), rest)
      else none
    | [] => none
  else if b < 0xF0 then
    match bs with
    | b2 :: b3 :: rest =>
      if (0x80 ≤ b2 ∧ b2 < 0xC0) ∧ (0x80 ≤ b3 ∧ b3 < 0xC0)
          ∧ 0x800 ≤ (b - 0xE0) * 0x1000 + (b2 - 0x80) * 0x40 + (b3 - 0x80)
          ∧ ¬(0xD800 ≤ (b - 0xE0) * 0x1000 + (b2 - 0x80) * 0x40 + (b3 - 0x80)
              ∧ (b - 0xE0) * 0x1000 + (b2 - 0x80) * 0x40 + (b3 - 0x80) ≤ 0xDFFF) then
        some ((b - 0xE0) * 0x1000 + (b2 - 0x80) * 0x40 + (b3 - 0x80), rest)
      else none
    | _ => none
  else if b < 0xF8 then
    match bs with
    | b2 :: b3 :: b4 :: rest =>
      if (0x80 ≤ b2 ∧ b2 < 0xC0) ∧ (0x80 ≤ b3 ∧ b3 < 0xC0) ∧ (0x80 ≤ b4 ∧ b4 < 0xC0)
          ∧ 0x10000 ≤ (b - 0xF0) * 0x40000 + (b2 - 0x80) * 0x1000
              + (b3 - 0x80) * 0x40 + (b4 - 0x80)
          ∧ (b - 0xF0) * 0x40000 + (b2 - 0x80) * 0x1000
              + (b3 - 0x80) * 0x40 + (b4 - 0x80) ≤ 0x10FFFF then
        some ((b - 0xF0) * 0x40000 + (b2 - 0x80) * 0x1000
          + (b3 - 0x80) * 0x40 + (b4 - 0x80), rest)
      else none
    | _ => none
  else none

theorem decodeOne_rest_length {b : Nat} {bs : List Nat} {cp : Nat} {rest : List Nat}
    (h : decodeOne b bs = some (cp, rest)) : rest.length ≤ bs.length := by
  unfold decodeOne at h
  repeat' split at h
  all_goals
    first
      | exact Option.noConfusion h
      | (injection h with h1
         injection h1 with h2 h3
         subst h3
         try simp only [List.length_cons]
         omega)

/-- Model of `QString::fromUtf8` (lossy UTF-8 decoding), written with an
explicit fuel argument so that the recursion is structural; a malformed
byte yields the replacement character U+FFFD and decoding resumes at the
next byte. -/
def fromUtf8Fuel : Nat → List Nat → List Char
  | _, [] => []
  | 0, _ :: _ => []
  | f + 1, b :: bs =>
    match decodeOne b bs with
    | some (cp, rest) => Char.ofNat cp :: fromUtf8Fuel f rest
    | none => Char.ofNat 0xFFFD :: fromUtf8Fuel f bs

/-- UTF-8 decoding of a whole byte list with no byte-order-mark handling:
the fuel `l.length` always suffices, because every decoding step consumes
at least one byte. -/
def fromUtf8Raw (l : List Nat) : List Char := fromUtf8Fuel l.length l

/-- Skip one leading UTF-8 byte-order mark (EF BB BF), as the stateless Qt
UTF-8 decoder does since Qt 5.3 (qutfcodec.cpp: "check if we failed to
decode the UTF-8 BOM; if so, skip it"). -/
def skipBOM : List Nat → List Nat
  | 0xEF :: 0xBB :: 0xBF :: rest => rest
  | l => l

/-- Model of `QString::fromUtf8`: skip one leading byte-order mark, then
decode the remaining bytes. -/
def fromUtf8 (l : List Nat) : List Char := fromUtf8Raw (skipBOM l)

/-- Strict UTF-8 decoder (same validity rules as `fromUtf8`, failing on
the first malformed sequence), with the same fuel presentation.  It
succeeds exactly on valid UTF-8 input and is used to state what a "valid
UTF-8 byte sequence" is. -/
def decodeUtf8Fuel : Nat → List Nat → Option (List Char)
  | _, [] => some []
  | 0, _ :: _ => none
  | f + 1, b :: bs =>
    match decodeOne b bs with
    | some (cp, rest) => (decodeUtf8Fuel f rest).map (Char.ofNat cp :: ·)
    | none => none

/-- Strict UTF-8 decoding of a whole byte list. -/
def decodeUtf8 (l : List Nat) : Option (List Char) := decodeUtf8Fuel l.length l

/-- UTF-8 encoding of one code point (model of the per-character work of
`QString::toUtf8`). -/
def encodeUtf8One (cp : Nat) : List Nat :=
  if cp < 0x80 then [cp]
  else if cp < 0x800 then [0xC0 + cp / 0x40, 0x80 + cp % 0x40]
  else if cp < 0x10000 then
    [0xE0 + cp / 0x1000, 0x80 + cp / 0x40 % 0x40, 0x80 + cp % 0x40]
  else
    [0xF0 + cp / 0x40000, 0x80 + cp / 0x1000 % 0x40, 0x80 + cp / 0x40 % 0x40,
     0x80 + cp % 0x40]

/-- Model of `QString::toUtf8` on a string given as a list of characters. -/
def encodeUtf8 (s : List Char) : List Nat :=
  s.flatMap (fun c => encodeUtf8One c.toNat)

/-- Model of `QString::fromLatin1`: each byte becomes the character of the
same code-point value. -/
def fromLatin1 (data : List Nat) : List Char :=
  data.map Char.ofNat

/-- `Console::plainTextStr`: decode as UTF-8; if re-encoding the result does
not reproduce the input bytes, fall back to Latin-1. -/
def plainTextStr (data : List Nat) : List Char :=
  let str := fromUtf8 data
  if encodeUtf8 str = data then str else fromLatin1 data

/-- Lowercase hexadecimal digit characters, as produced by
`QByteArray::toHex`. -/
def hexDigit (n : Nat) : Char :=
  match n with
  | 0 => '0' | 1 => '1' | 2 => '2' | 3 => '3'
  | 4 => '4' | 5 => '5' | 6 => '6' | 7 => '7'
  | 8 => '8' | 9 => '9' | 10 => 'a' | 11 => 'b'
  | 12 => 'c' | 13 => 'd' | 14 => 'e' | 15 => 'f'
  | _ => '0'

/-- Model of `QByteArray::toHex`: two lowercase hex digits per byte, no
separators. -/
def toHexChars : List Nat → List Char
  | [] => []
  | b :: bs => hexDigit (b % 256 / 16) :: hexDigit (b % 16) :: toHexChars bs

/-- The space-insertion loop of `Console::hexadecimalStr`: a space after
every two characters. -/
def addSpaces : List Char → List Char
  | c1 :: c2 :: rest => c1 :: c2 :: ' ' :: addSpaces rest
  | l => l

/-- `Console::hexadecimalStr`: hex dump with a space after every byte, then
the two text substitutions, `str.replace("0a", "0a\r")` followed by
`str.replace("0d", "0d\n")`. -/
def hexadecimalStr (data : List Nat) : List Char :=
  replace2 '0' 'd' ['0', 'd', '\n']
    (replace2 '0' 'a' ['0', 'a', '\r']
      (addSpaces (toHexChars data)))

/-- Value of a hexadecimal digit character, or `none` for any other
character (the digit forms `QString::toInt(nullptr, 16)` accepts). -/
def hexCharVal? (c : Char) : Option Nat :=
  if 48 ≤ c.toNat ∧ c.toNat ≤ 57 then some (c.toNat - 48)
  else if 97 ≤ c.toNat ∧ c.toNat ≤ 102 then some (c.toNat - 87)
  else if 65 ≤ c.toNat ∧ c.toNat ≤ 70 then some (c.toNat - 55)
  else none

/-- Accumulating hex-digit parser: consumes the whole list, failing on the
first non-digit. -/
def parseHexDigitsAux : List Char → Nat → Option Nat
  | [], acc => some acc
  | c :: cs, acc =>
    match hexCharVal? c with
    | some v => parseHexDigitsAux cs (acc * 16 + v)
    | none => none

/-- The characters `QChar::isSpace` accepts: ASCII whitespace, NEL, NBSP
and the Unicode Zs, Zl and Zp separators. -/
def isQtSpace (c : Char) : Bool :=
  decide ((9 ≤ c.toNat ∧ c.toNat ≤ 13) ∨ c.toNat = 32 ∨ c.toNat = 0x85 ∨ c.toNat = 0xA0
    ∨ c.toNat = 0x1680 ∨ (0x2000 ≤ c.toNat ∧ c.toNat ≤ 0x200A)
    ∨ c.toNat = 0x2028 ∨ c.toNat = 0x2029 ∨ c.toNat = 0x202F
    ∨ c.toNat = 0x205F ∨ c.toNat = 0x3000)

/-- The sign-and-digits part of `QString::toInt(nullptr, 16)`, applied to
the whitespace-trimmed string: an optional sign followed by hex digits
that consume the whole remainder; any failure yields 0.  (The `0x` prefix
case cannot change the result on the two-character strings
`Console::hexToBytes` builds, and is omitted.) -/
def toInt16Core : List Char → Int
  | [] => 0
  | c :: rest =>
    if c = '-' then
      match parseHexDigitsAux rest 0 with
      | some n => -(n : Int)
      | none => 0
    else if c = '+' then
      match parseHexDigitsAux rest 0 with
      | some n => (n : Int)
      | none => 0
    else
      match parseHexDigitsAux (c :: rest) 0 with
      | some n => (n : Int)
      | none => 0

/-- Model of `QString::toInt(nullptr, 16)`: leading and trailing
whitespace is ignored (`QLocaleData::numberToCLocale` skips it), then an
optional sign followed by hex digits must consume the remainder; any
failure yields 0. -/
def toInt16 (s : List Char) : Int :=
  toInt16Core (((s.dropWhile isQtSpace).reverse.dropWhile isQtSpace).reverse)

/-- The `int` to `char` conversion done by `QByteArray::append(char)`:
reduction modulo 256 (two's complement). -/
def intToByte (i : Int) : Nat :=
  (i % 256).toNat

/-- The parsing loop of `Console::hexToBytes` over the space-stripped
string, two characters at a time.  On a list of odd length the original
code reads `withoutSpaces.at(i + 1)` past the end of the string, which is
out of bounds (undefined behaviour); this is modelled as `none`. -/
def hexToBytesLoop : List Char → Option (List Nat)
  | [] => some []
  | [_] => none
  | c1 :: c2 :: rest =>
    (hexToBytesLoop rest).map (fun bs => intToByte (toInt16 [c1, c2]) :: bs)

/-- `Console::hexToBytes`: strip spaces (`data.replace(" ", "")`), then
parse consecutive 2-character groups with `QString::toInt(nullptr, 16)`. -/
def hexToBytes (data : List Char) : Option (List Nat) :=
  hexToBytesLoop (replace1 ' ' [] data)


/-- `Console::DataMode`: encoding of outbound user-typed input. -/
inductive DataMode
  | DataUTF8
  | DataHexadecimal
deriving DecidableEq

/-- `Console::LineEnding`: characters appended to each sent data block. -/
inductive LineEnding
  | NoLineEnding
  | NewLine
  | CarriageReturn
  | BothNewLineAndCarriageReturn
deriving DecidableEq

/-- `Console::DisplayMode`: rendering mode of the console. -/
inductive DisplayMode
  | DisplayPlainText
  | DisplayHexadecimal
deriving DecidableEq

/-- Qt signals emitted by `Console`, in emission order. -/
inductive Event
  | lineReceived (line : List Char)
  | stringReceived (text : List Char)
  | dataReceived
  | historyItemChanged
  | echoChanged
  | dataModeChanged
  | showTimestampChanged
  | autoscrollChanged
  | lineEndingChanged
  | displayModeChanged
deriving DecidableEq

/-- The member state of the `Console` singleton. -/
structure ConsoleState where
  dataMode : DataMode
  lineEnding : LineEnding
  displayMode : DisplayMode
  historyItem : Nat
  echo : Bool
  autoscroll : Bool
  showTimestamp : Bool
  timestampAdded : Bool
  lines : List (List Char)
  dataBuffer : List Nat
  historyItems : List (List Char)
deriving DecidableEq

/-- The state built by `Console::Console()` (which also calls `clear()`). -/
def initialConsole : ConsoleState where
  dataMode := DataMode.DataUTF8
  lineEnding := LineEnding.NoLineEnding
  displayMode := DisplayMode.DisplayPlainText
  historyItem := 0
  echo := false
  autoscroll := true
  showTimestamp := true
  timestampAdded := false
  lines := []
  dataBuffer := []
  historyItems := []

/-- `Console::clear`: empty the scrollback and the staging buffer (the
capacity reservations have no observable effect in this model) and emit
`dataReceived`. -/
def clear (st : ConsoleState) : ConsoleState × List Event :=
  ({ st with lines := [], dataBuffer := [] }, [Event.dataReceived])

/-- `Console::setEcho`. -/
def setEcho (enabled : Bool) (st : ConsoleState) : ConsoleState × List Event :=
  ({ st with echo := enabled }, [Event.echoChanged])

/-- `Console::setDataMode`. -/
def setDataMode (mode : DataMode) (st : ConsoleState) : ConsoleState × List Event :=
  ({ st with dataMode := mode }, [Event.dataModeChanged])

/-- `Console::setShowTimestamp`. -/
def setShowTimestamp (enabled : Bool) (st : ConsoleState) : ConsoleState × List Event :=
  ({ st with showTimestamp := enabled }, [Event.showTimestampChanged])

/-- `Console::setLineEnding`. -/
def setLineEnding (mode : LineEnding) (st : ConsoleState) : ConsoleState × List Event :=
  ({ st with lineEnding := mode }, [Event.lineEndingChanged])

/-- `Console::setDisplayMode`. -/
def setDisplayMode (mode : DisplayMode) (st : ConsoleState) : ConsoleState × List Event :=
  ({ st with displayMode := mode }, [Event.displayModeChanged])

/-- The last line of the scrollback (`m_lines.last()`; only ever read when
the list is non-empty). -/
def lastLine (lines : List (List Char)) : List Char :=
  lines.getLastD []

/-- Replace the last line of the scrollback
(`m_lines.replace(lineCount() - 1, str)`). -/
def setLast (lines : List (List Char)) (l : List Char) : List (List Char) :=
  lines.dropLast ++ [l]

/-- The character loop of `Console::append`: for each character, first stamp
the (possibly empty) timestamp string onto the open line if it has not been
stamped yet, then either close the line (on `'\n'` or `'\r'`) or append the
character to the open line.  Returns the new scrollback and the new value
of `m_timestampAdded`. -/
def appendLoop (tsStr : List Char) : List Char → List (List Char) → Bool →
    List (List Char) × Bool
  | [], lines, flag => (lines, flag)
  | c :: cs, lines, flag =>
    let lines1 := if flag then lines else setLast lines (lastLine lines ++ tsStr)
    if c = '\n' ∨ c = '\r' then
      appendLoop tsStr cs (lines1 ++ [[]]) false
    else
      appendLoop tsStr cs (setLast lines1 (lastLine lines1 ++ [c])) true

/-- `Console::append(string, addTimestamp)`.  The timestamp string the code
formats from the current wall-clock time (`"HH:mm:ss.zzz -> "`) is passed
in as the parameter `ts`.  Returns the new state and the emitted signals:
one `lineReceived` per newly closed line (the code indexes `m_lines` at
`i - 1` inside the emission loop), a `stringReceived` with the normalized
text when no line was closed, and always a final `dataReceived`. -/
def append (ts : List Char) (string : List Char) (addTimestamp : Bool)
    (st : ConsoleState) : ConsoleState × List Event :=
  if string = [] then (st, [])
  else
    let timestamp := if addTimestamp then ts else []
    let data := replace2 '\r' '\n' ['\n'] string
    let lines0 := if st.lines.length = 0 then st.lines ++ [[]] else st.lines
    let oldLineCount := lines0.length
    let r := appendLoop timestamp data lines0 st.timestampAdded
    let newLineCount := r.1.length
    let events :=
      if newLineCount = oldLineCount then [Event.stringReceived data]
      else (List.range' oldLineCount (newLineCount - oldLineCount)).map
        (fun i => Event.lineReceived (r.1.getD (i - 1) []))
    ({ st with lines := r.1, timestampAdded := r.2 }, events ++ [Event.dataReceived])

/-- `Console::dataToString`: dispatch on the display mode. -/
def dataToString (mode : DisplayMode) (data : List Nat) : List Char :=
  match mode with
  | DisplayMode.DisplayPlainText => plainTextStr data
  | DisplayMode.DisplayHexadecimal => hexadecimalStr data

/-- `Console::displayData` (the 24 Hz flush tick): append the decoded
staging buffer to the scrollback, then clear the staging buffer. -/
def displayData (ts : List Char) (st : ConsoleState) : ConsoleState × List Event :=
  let r := append ts (dataToString st.displayMode st.dataBuffer) st.showTimestamp st
  ({ r.1 with dataBuffer := [] }, r.2)

/-- `Console::onDataReceived`: stage the delivered bytes; no signal and no
line processing. -/
def onDataReceived (data : List Nat) (st : ConsoleState) : ConsoleState :=
  { st with dataBuffer := st.dataBuffer ++ data }

/-- The eviction loop of `Console::addToHistory`:
`while (m_historyItems.count() > 100) m_historyItems.removeFirst();`. -/
def evictOld : List (List Char) → List (List Char)
  | [] => []
  | c :: cs => if cs.length + 1 > 100 then evictOld cs else c :: cs

/-- `Console::addToHistory`: evict old commands, append the new command,
and set the recall cursor to the new count. -/
def addToHistory (command : List Char) (st : ConsoleState) : ConsoleState × List Event :=
  let items := evictOld st.historyItems ++ [command]
  ({ st with historyItems := items, historyItem := items.length },
   [Event.historyItemChanged])

/-- `Console::send`.  The external collaborators are passed in as
parameters: `connected` is `Manager::connected()`, `writeResult` the value
`Manager::writeData` returned, and `ts` the formatted timestamp string.
The result is `none` when the run reaches the out-of-bounds read inside
`hexToBytes` (undefined behaviour); otherwise the new state and emitted
signals. -/
def send (ts : List Char) (connected : Bool) (writeResult : Int)
    (data : List Char) (st : ConsoleState) : Option (ConsoleState × List Event) :=
  if data = [] ∨ ¬connected then some (st, [])
  else
    let r1 := addToHistory data st
    let bin? := match r1.1.dataMode with
      | DataMode.DataHexadecimal => hexToBytes data
      | DataMode.DataUTF8 => some (encodeUtf8 data)
    match bin? with
    | none => none
    | some bin0 =>
      let bin := bin0 ++ (match r1.1.lineEnding with
        | LineEnding.NoLineEnding => []
        | LineEnding.NewLine => [10]
        | LineEnding.CarriageReturn => [13]
        | LineEnding.BothNewLineAndCarriageReturn => [13, 10])
      if writeResult > 0 then
        if r1.1.echo then
          let r2 := append ts (dataToString r1.1.displayMode bin) r1.1.showTimestamp r1.1
          some ({ r2.1 with timestampAdded := false }, r1.2 ++ r2.2)
        else some (r1.1, r1.2)
      else some (r1.1, r1.2)


/-- The timestamp string used in the concrete scenarios. -/
def tsT : List Char := "T -> ".toList

/-- C6 counterexample: on an empty buffer with timestamp string `"T -> "`,
`append("hello\nworld", true)` leaves the open line at index 1 equal to
`"T -> world"`, not `"world"`: the open line is stamped as soon as its
first character is processed, contradicting the claim that it stays
untimestamped. -/
theorem C6_cex_open_line_gets_timestamp :
    (append tsT "hello\nworld".toList true initialConsole).1.lines
        = ["T -> hello".toList, "T -> world".toList]
    ∧ "T -> world".toList ≠ "world".toList := by decide

/-- C6 amended: `appendText("hello\nworld", true)` on an empty buffer with
timestamp `"T -> "` produces closed line `"T -> hello"` at index 0 and
open line `"T -> world"` at index 1 (the open line already carries its
timestamp), and fires exactly one `lineReceived` notification, carrying
`"T -> hello"`, followed by the generic `dataReceived` notification. -/
theorem C6_append_hello_world :
    (append tsT "hello\nworld".toList true initialConsole).1.lines
        = ["T -> hello".toList, "T -> world".toList]
    ∧ (append tsT "hello\nworld".toList true initialConsole).2
        = [Event.lineReceived "T -> hello".toList, Event.dataReceived] := by decide

/-- C7: `clear()` does not reset `m_timestampAdded`.  Starting from the
state reached by `append("a", true)` (flag set), clearing and then calling
`append("b", true)` opens a first line `"b"` with no timestamp prefix,
although `withTimestamp = true`: the per-line state machine is not
restarted at `Empty` and the TimestampState invariant is broken by
`clear`. -/
theorem C7_clear_keeps_timestamp_flag :
    (append tsT "a".toList true initialConsole).1.timestampAdded = true
    ∧ (clear (append tsT "a".toList true initialConsole).1).1.timestampAdded = true
    ∧ (clear (append tsT "a".toList true initialConsole).1).1.lines = []
    ∧ (append tsT "b".toList true
        (clear (append tsT "a".toList true initialConsole).1).1).1.lines
        = ["b".toList] := by decide

/-- C9: from an empty buffer with plain-text display mode and timestamps
disabled, `onDataReceived("ab")` then `onDataReceived("c\n")` followed by a
single `displayData()` tick produce a scrollback whose single closed line
is `"abc"` (the last, open, line is empty), leave the staging buffer
empty, and emit one `lineReceived("abc")` plus the final `dataReceived`. -/
theorem C9_staging_batches :
    (displayData tsT (onDataReceived [99, 10] (onDataReceived [97, 98]
        (setShowTimestamp false initialConsole).1))).1.lines.dropLast
      = ["abc".toList]
    ∧ (displayData tsT (onDataReceived [99, 10] (onDataReceived [97, 98]
        (setShowTimestamp false initialConsole).1))).1.lines
      = ["abc".toList, []]
    ∧ (displayData tsT (onDataReceived [99, 10] (onDataReceived [97, 98]
        (setShowTimestamp false initialConsole).1))).1.dataBuffer = []
    ∧ (displayData tsT (onDataReceived [99, 10] (onDataReceived [97, 98]
        (setShowTimestamp false initialConsole).1))).2
      = [Event.lineReceived "abc".toList, Event.dataReceived] := by decide

/-- C3 counterexample: `hexToBytes "zz"` does not fail and does not produce
an empty result: the invalid pair `"zz"` is parsed by
`QString::toInt(nullptr, 16)` as 0, so the byte 0 is emitted silently. -/
theorem C3_cex_malformed_hex_silent_zero :
    hexToBytes "zz".toList = some [0]
    ∧ hexToBytes "zz".toList ≠ none
    ∧ hexToBytes "zz".toList ≠ some [] := by decide

/-- C2 counterexample: echo-send `"x"` (connected, 1 byte written, echo on,
UTF-8 data mode, plain-text display) clears the timestamp flag after
echoing; the next inbound `appendText("b\n", true)` then stamps a second
timestamp into the middle of the still-open line, so the closed line 0
reads `"T -> xT -> b"`: it contains the timestamp string twice, the second
occurrence at position 6 rather than at the start. -/
theorem C2_cex_echo_mid_line_timestamp :
    Option.map (fun p => (displayData tsT (onDataReceived [98, 10] p.1)).1.lines)
        (send tsT true 1 "x".toList (setEcho true initialConsole).1)
      = some ["T -> xT -> b".toList, []]
    ∧ List.count 'T' "T -> xT -> b".toList = 2
    ∧ List.take 5 (List.drop 6 "T -> xT -> b".toList) = tsT := by decide

/-- C10: an idle flush tick is a no-op: whenever the staging buffer is
empty, `displayData` returns the state unchanged (in either display mode,
whatever the configuration) and emits no signal at all. -/
theorem C10_idle_flush_noop (ts : List Char) (st : ConsoleState)
    (h : st.dataBuffer = []) : displayData ts st = (st, []) := by
  have hdts : dataToString st.displayMode st.dataBuffer = [] := by
    rw [h]; cases st.displayMode <;> rfl
  unfold displayData
  rw [hdts]
  unfold append
  rw [if_pos rfl]
  obtain ⟨dm, le, dy, hi, ec, au, sh, ta, ln, db, hs⟩ := st
  simp only at h
  subst h
  rfl

/-- C10 witness: the idle flush is a no-op at the initial state. -/
theorem C10_idle_flush_noop_witness :
    displayData tsT initialConsole = (initialConsole, []) :=
  C10_idle_flush_noop tsT initialConsole rfl

/-- The last `n` elements of a list. -/
def lastN (n : Nat) (l : List α) : List α := l.drop (l.length - n)

theorem evictOld_eq_drop (l : List (List Char)) :
    evictOld l = l.drop (l.length - 100) := by
  induction l with
  | nil => rfl
  | cons c cs ih =>
    unfold evictOld
    by_cases h : cs.length + 1 > 100
    · rw [if_pos h, ih]
      have h1 : (c :: cs).length - 100 = (cs.length - 100) + 1 := by
        simp only [List.length_cons]; omega
      rw [h1, List.drop_succ_cons]
    · rw [if_neg h]
      have h1 : (c :: cs).length - 100 = 0 := by
        simp only [List.length_cons]; omega
      rw [h1, List.drop_zero]

theorem addToHistory_items (c : List Char) (st : ConsoleState) :
    (addToHistory c st).1.historyItems = lastN 101 (st.historyItems ++ [c]) := by
  unfold addToHistory lastN
  simp only
  rw [evictOld_eq_drop]
  have hlen : (st.historyItems ++ [c]).length = st.historyItems.length + 1 := by simp
  rw [hlen]
  have hle : st.historyItems.length + 1 - 101 = st.historyItems.length - 100 := by omega
  rw [hle]
  rw [List.drop_append_of_le_length (by omega)]

theorem addToHistory_cursor (c : List Char) (st : ConsoleState) :
    (addToHistory c st).1.historyItem = (addToHistory c st).1.historyItems.length := rfl

/-- Pushing a list of commands in order (`Console::addToHistory` repeatedly). -/
def pushAll (cs : List (List Char)) (st : ConsoleState) : ConsoleState :=
  cs.foldl (fun s c => (addToHistory c s).1) st

theorem lastN_append_lastN (n : Nat) (x y : List α) :
    lastN n (lastN n x ++ y) = lastN n (x ++ y) := by
  unfold lastN
  by_cases h : x.length ≤ n
  · have h0 : x.length - n = 0 := by omega
    rw [h0, List.drop_zero]
  · have hk : x.length - n ≤ x.length := by omega
    rw [← List.drop_append_of_le_length hk, List.drop_drop]
    congr 1
    simp only [List.length_drop, List.length_append]
    omega

theorem pushAll_items (cs : List (List Char)) :
    ∀ st : ConsoleState, cs ≠ [] →
      (pushAll cs st).historyItems = lastN 101 (st.historyItems ++ cs)
      ∧ (pushAll cs st).historyItem = (pushAll cs st).historyItems.length := by
  induction cs with
  | nil => intro st h; exact absurd rfl h
  | cons c cs ih =>
    intro st _
    by_cases hcs : cs = []
    · subst hcs
      constructor
      · exact addToHistory_items c st
      · exact addToHistory_cursor c st
    · have step : pushAll (c :: cs) st = pushAll cs (addToHistory c st).1 := rfl
      rw [step]
      refine ⟨?_, (ih _ hcs).2⟩
      rw [(ih _ hcs).1, addToHistory_items, lastN_append_lastN]
      have hap : (st.historyItems ++ [c]) ++ cs = st.historyItems ++ c :: cs := by simp
      rw [hap]

theorem addToHistory_length_le (c : List Char) (st : ConsoleState) :
    (addToHistory c st).1.historyItems.length ≤ 101 := by
  rw [addToHistory_items]
  unfold lastN
  simp only [List.length_drop, List.length_append]
  omega

/-- C1 amended: from every starting state, 150 pushes leave the history
holding exactly the last 101 (not 100) pushed values in oldest-first
order, with the recall cursor equal to the length, 101; and the length
never exceeds 101 after any push.  (The eviction loop
`while (count > 100) removeFirst()` runs before the append, so the list
settles at 101 entries, one more than the claimed 100.) -/
theorem C1_history_push_150 (st : ConsoleState) (cmds : List (List Char))
    (h : cmds.length = 150) :
    (pushAll cmds st).historyItems = cmds.drop 49
    ∧ (pushAll cmds st).historyItem = 101
    ∧ ∀ (st' : ConsoleState) (c : List Char),
        (addToHistory c st').1.historyItems.length ≤ 101 := by
  have hne : cmds ≠ [] := by intro hc; rw [hc] at h; simp at h
  obtain ⟨h1, h2⟩ := pushAll_items cmds st hne
  have hitems : (pushAll cmds st).historyItems = cmds.drop 49 := by
    rw [h1]
    unfold lastN
    have : (st.historyItems ++ cmds).length - 101
        = st.historyItems.length + 49 := by
      simp only [List.length_append, h]; omega
    rw [this]
    rw [List.drop_append_eq_append_drop]
    have h0 : st.historyItems.drop (st.historyItems.length + 49) = [] := by
      apply List.drop_eq_nil_of_le; omega
    rw [h0]
    simp
  refine ⟨hitems, ?_, fun st' c => addToHistory_length_le c st'⟩
  rw [h2, hitems]
  simp [h]

/-- 150 distinct one-character commands. -/
def cmds150 : List (List Char) := (List.range 150).map (fun n => [Char.ofNat (33 + n)])

/-- C1 witness: the amended statement at the initial state and 150 concrete
distinct commands. -/
theorem C1_history_push_150_witness :
    (pushAll cmds150 initialConsole).historyItems = cmds150.drop 49
    ∧ (pushAll cmds150 initialConsole).historyItem = 101
    ∧ ∀ (st' : ConsoleState) (c : List Char),
        (addToHistory c st').1.historyItems.length ≤ 101 :=
  C1_history_push_150 initialConsole cmds150 (by simp [cmds150])

/-- C1 counterexample: pushing 150 distinct values onto the empty history
leaves 101 entries, not 100: the history length does exceed 100. -/
theorem C1_cex_history_holds_101 :
    (pushAll cmds150 initialConsole).historyItems.length = 101
    ∧ cmds150.length = 150
    ∧ cmds150.Nodup
    ∧ ¬(pushAll cmds150 initialConsole).historyItems.length ≤ 100 := by
  have hne : cmds150 ≠ [] := by decide
  obtain ⟨h1, _⟩ := pushAll_items cmds150 initialConsole hne
  have hlen : (pushAll cmds150 initialConsole).historyItems.length = 101 := by
    rw [h1]
    unfold lastN
    simp [initialConsole, cmds150]
  refine ⟨hlen, by simp [cmds150], by decide, by omega⟩

theorem hexCharVal?_facts {c : Char} {v : Nat} (h : hexCharVal? c = some v) :
    v ≤ 15 ∧ c ≠ '-' ∧ c ≠ '+' ∧ isQtSpace c = false := by
  have hm : ('-').toNat = 45 := rfl
  have hp : ('+').toNat = 43 := rfl
  unfold hexCharVal? at h
  split_ifs at h with h1 h2 h3
  · injection h with hv; subst hv
    exact ⟨by omega, fun he => by rw [he, hm] at h1; omega,
      fun he => by rw [he, hp] at h1; omega,
      by simp only [isQtSpace, decide_eq_false_iff_not]; omega⟩
  · injection h with hv; subst hv
    exact ⟨by omega, fun he => by rw [he, hm] at h2; omega,
      fun he => by rw [he, hp] at h2; omega,
      by simp only [isQtSpace, decide_eq_false_iff_not]; omega⟩
  · injection h with hv; subst hv
    exact ⟨by omega, fun he => by rw [he, hm] at h3; omega,
      fun he => by rw [he, hp] at h3; omega,
      by simp only [isQtSpace, decide_eq_false_iff_not]; omega⟩

theorem toInt16_pair {c1 c2 : Char} {v1 v2 : Nat}
    (h1 : hexCharVal? c1 = some v1) (h2 : hexCharVal? c2 = some v2) :
    toInt16 [c1, c2] = ((v1 * 16 + v2 : Nat) : Int) := by
  obtain ⟨hb1, hm1, hp1, hw1⟩ := hexCharVal?_facts h1
  obtain ⟨hb2, hm2, hp2, hw2⟩ := hexCharVal?_facts h2
  have htrim : ((([c1, c2].dropWhile isQtSpace).reverse.dropWhile isQtSpace).reverse)
      = [c1, c2] := by
    simp [List.dropWhile_cons, hw1, hw2]
  unfold toInt16
  rw [htrim]
  simp only [toInt16Core]
  rw [if_neg hm1, if_neg hp1]
  simp only [parseHexDigitsAux, h1, h2]
  push_cast
  ring_nf

theorem intToByte_small {n : Nat} (h : n < 256) : intToByte (n : Int) = n := by
  unfold intToByte
  rw [Int.emod_eq_of_lt (by exact_mod_cast Nat.zero_le n) (by exact_mod_cast h)]
  simp

/-- Value of a hexadecimal digit character (0 for any other character). -/
def hexDigitVal (c : Char) : Nat := (hexCharVal? c).getD 0

/-- The reference reading of the claim: parse consecutive 2-character hex
groups into byte values. -/
def hexPairsToBytes : List Char → List Nat
  | c1 :: c2 :: rest => (hexDigitVal c1 * 16 + hexDigitVal c2) :: hexPairsToBytes rest
  | _ => []

theorem hexToBytesLoop_odd : ∀ l : List Char, l.length % 2 = 1 →
    hexToBytesLoop l = none := by
  intro l
  induction l using hexToBytesLoop.induct with
  | case1 => intro h; simp at h
  | case2 c => intro _; rfl
  | case3 c1 c2 rest ih =>
    intro h
    have hr : rest.length % 2 = 1 := by
      simp only [List.length_cons] at h; omega
    unfold hexToBytesLoop
    rw [ih hr]
    rfl

theorem hexToBytesLoop_wellformed : ∀ l : List Char,
    (∀ c ∈ l, (hexCharVal? c).isSome) → l.length % 2 = 0 →
    hexToBytesLoop l = some (hexPairsToBytes l) := by
  intro l
  induction l using hexToBytesLoop.induct with
  | case1 => intro _ _; rfl
  | case2 c => intro _ h; simp at h
  | case3 c1 c2 rest ih =>
    intro hall h
    have hr : rest.length % 2 = 0 := by
      simp only [List.length_cons] at h; omega
    obtain ⟨v1, h1⟩ := Option.isSome_iff_exists.mp (hall c1 (by simp))
    obtain ⟨v2, h2⟩ := Option.isSome_iff_exists.mp (hall c2 (by simp))
    have hrest : ∀ c ∈ rest, (hexCharVal? c).isSome := by
      intro c hc; exact hall c (by simp [hc])
    unfold hexToBytesLoop hexPairsToBytes
    rw [ih hrest hr, toInt16_pair h1 h2]
    have hv1 : v1 ≤ 15 := (hexCharVal?_facts h1).1
    have hv2 : v2 ≤ 15 := (hexCharVal?_facts h2).1
    simp only [Option.map_some']
    rw [intToByte_small (by omega)]
    unfold hexDigitVal
    rw [h1, h2]
    rfl

/-- C3 amended: `hexToBytes` never reports an error.  For every input whose
space-stripped length is odd, the loop reads past the end of the string
(undefined behaviour, modelled as `none`) instead of failing cleanly; a
2-character group that is not valid hexadecimal is parsed by
`QString::toInt(nullptr, 16)` as the value 0, silently contributing a zero
byte; and for every well-formed input (even stripped length, all
characters hex digits) it returns the bytes obtained by parsing
consecutive 2-character groups after stripping all spaces. -/
theorem C3_hexToBytes_behavior (data : List Char) :
    ((replace1 ' ' [] data).length % 2 = 1 → hexToBytes data = none)
    ∧ ((∀ c ∈ replace1 ' ' [] data, (hexCharVal? c).isSome) →
        (replace1 ' ' [] data).length % 2 = 0 →
        hexToBytes data = some (hexPairsToBytes (replace1 ' ' [] data))) := by
  constructor
  · intro h
    exact hexToBytesLoop_odd _ h
  · intro hall h
    exact hexToBytesLoop_wellformed _ hall h

/-- C3 witness: the well-formed input `"68 65"` parses to the bytes
`[0x68, 0x65]`, through the amended theorem. -/
theorem C3_hexToBytes_behavior_witness :
    hexToBytes "68 65".toList = some [0x68, 0x65] := by
  have := (C3_hexToBytes_behavior "68 65".toList).2 (by decide) (by decide)
  rw [this]
  decide

/-- Characters removed by the claim's reading of the hex dump: spaces and
the injected carriage-return and line-feed characters. -/
def stripDisplay (s : List Char) : List Char :=
  s.filter (fun c => !(c = ' ' || c = '\r' || c = '\n'))

theorem filter_replace2 (p : Char → Bool) (a b : Char) (r : List Char)
    (hr : r.filter p = [a, b].filter p) :
    ∀ s : List Char, (replace2 a b r s).filter p = s.filter p := by
  intro s
  induction s using replace2.induct a b r with
  | case1 => rfl
  | case2 c => rfl
  | case3 c c' cs hc ih =>
    obtain ⟨hca, hcb⟩ := hc
    subst hca hcb
    unfold replace2
    rw [if_pos ⟨rfl, rfl⟩]
    rw [List.filter_append, ih, hr, ← List.filter_append]
    rfl
  | case4 c c' cs hc ih =>
    unfold replace2
    rw [if_neg hc]
    simp only [List.filter_cons, ih]

theorem filter_addSpaces (p : Char → Bool) (hsp : p ' ' = false) :
    ∀ s : List Char, (addSpaces s).filter p = s.filter p := by
  intro s
  induction s using addSpaces.induct with
  | case1 c1 c2 rest ih =>
    unfold addSpaces
    simp only [List.filter_cons, hsp, Bool.false_eq_true, if_false, ih]
  | case2 l h =>
    have ha : addSpaces l = l := by
      cases l with
      | nil => rfl
      | cons c cs =>
        cases cs with
        | nil => rfl
        | cons c2 rest => exact absurd rfl (h c c2 rest)
    rw [ha]

theorem hexDigit_cases (n : Nat) :
    hexDigit n = '0' ∨ hexDigit n = '1' ∨ hexDigit n = '2' ∨ hexDigit n = '3'
    ∨ hexDigit n = '4' ∨ hexDigit n = '5' ∨ hexDigit n = '6' ∨ hexDigit n = '7'
    ∨ hexDigit n = '8' ∨ hexDigit n = '9' ∨ hexDigit n = 'a' ∨ hexDigit n = 'b'
    ∨ hexDigit n = 'c' ∨ hexDigit n = 'd' ∨ hexDigit n = 'e' ∨ hexDigit n = 'f' := by
  unfold hexDigit
  split <;> simp

theorem hexDigit_keep (p : Char → Bool)
    (hp : ∀ d : Char, (hexCharVal? d).isSome → p d = true) (n : Nat) :
    p (hexDigit n) = true := by
  rcases hexDigit_cases n with h | h | h | h | h | h | h | h | h | h | h | h | h | h | h | h <;>
    (rw [h]; exact hp _ (by decide))

theorem filter_toHexChars (p : Char → Bool)
    (hp : ∀ d : Char, (hexCharVal? d).isSome → p d = true) :
    ∀ b : List Nat, (toHexChars b).filter p = toHexChars b := by
  intro b
  induction b with
  | nil => rfl
  | cons x xs ih =>
    unfold toHexChars
    simp only [List.filter_cons, hexDigit_keep p hp, if_true, ih]

theorem stripDisplay_hexadecimalStr (b : List Nat) :
    stripDisplay (hexadecimalStr b) = toHexChars b := by
  unfold stripDisplay hexadecimalStr
  rw [filter_replace2 _ _ _ _ (by decide), filter_replace2 _ _ _ _ (by decide)]
  rw [filter_addSpaces _ (by decide)]
  rw [filter_toHexChars]
  intro d hd
  revert hd
  unfold hexCharVal?
  split_ifs with h1 h2 h3 <;> intro hd
  · simp only [Bool.not_eq_true']
    have : d ≠ ' ' ∧ d ≠ '\r' ∧ d ≠ '\n' := by
      refine ⟨?_, ?_, ?_⟩ <;> (intro he; subst he; revert h1; decide)
    simp [this.1, this.2.1, this.2.2]
  · simp only [Bool.not_eq_true']
    have : d ≠ ' ' ∧ d ≠ '\r' ∧ d ≠ '\n' := by
      refine ⟨?_, ?_, ?_⟩ <;> (intro he; subst he; revert h2; decide)
    simp [this.1, this.2.1, this.2.2]
  · simp only [Bool.not_eq_true']
    have : d ≠ ' ' ∧ d ≠ '\r' ∧ d ≠ '\n' := by
      refine ⟨?_, ?_, ?_⟩ <;> (intro he; subst he; revert h3; decide)
    simp [this.1, this.2.1, this.2.2]
  · simp at hd

theorem hexDigit_isSome (n : Nat) : (hexCharVal? (hexDigit n)).isSome := by
  rcases hexDigit_cases n with h | h | h | h | h | h | h | h | h | h | h | h | h | h | h | h <;>
    (rw [h]; decide)

theorem hexDigitVal_hexDigit : ∀ d : Nat, d < 16 → hexDigitVal (hexDigit d) = d := by
  decide

theorem hexPairsToBytes_toHexChars (b : List Nat) (h : ∀ x ∈ b, x < 256) :
    hexPairsToBytes (toHexChars b) = b := by
  induction b with
  | nil => rfl
  | cons x xs ih =>
    have hx : x < 256 := h x (by simp)
    have hxs : ∀ y ∈ xs, y < 256 := fun y hy => h y (by simp [hy])
    unfold toHexChars hexPairsToBytes
    rw [ih hxs]
    have hm : x % 256 = x := Nat.mod_eq_of_lt hx
    rw [hm]
    rw [hexDigitVal_hexDigit (x / 16) (by omega), hexDigitVal_hexDigit (x % 16) (by omega)]
    have : x / 16 * 16 + x % 16 = x := by omega
    rw [this]

/-- C4: the hex dump is lossless: for every byte sequence, removing all
spaces and all injected carriage-return and line-feed characters from
`hexadecimalStr` leaves exactly the hex digit pairs of the input, which
parse back to exactly the input bytes. -/
theorem C4_hex_dump_lossless (b : List Nat) (h : ∀ x ∈ b, x < 256) :
    hexPairsToBytes (stripDisplay (hexadecimalStr b)) = b
    ∧ ∀ c ∈ stripDisplay (hexadecimalStr b), (hexCharVal? c).isSome := by
  rw [stripDisplay_hexadecimalStr]
  constructor
  · exact hexPairsToBytes_toHexChars b h
  · intro c hc
    clear h
    induction b with
    | nil => simp [toHexChars] at hc
    | cons x xs ih =>
      unfold toHexChars at hc
      rcases List.mem_cons.mp hc with hc | hc
      · rw [hc]; exact hexDigit_isSome (x % 256 / 16)
      · rcases List.mem_cons.mp hc with hc | hc
        · rw [hc]; exact hexDigit_isSome (x % 16)
        · exact ih hc

/-- C4 witness at a concrete byte sequence. -/
theorem C4_hex_dump_lossless_witness :
    hexPairsToBytes (stripDisplay (hexadecimalStr [0x68, 0x0A, 0x00, 0xA0]))
      = [0x68, 0x0A, 0x00, 0xA0] :=
  (C4_hex_dump_lossless [0x68, 0x0A, 0x00, 0xA0] (by decide)).1

/-- Whether the two-character pattern `a b` occurs (as adjacent characters)
anywhere in the list. -/
def containsPair (a b : Char) : List Char → Bool
  | c :: c' :: cs => if c = a ∧ c' = b then true else containsPair a b (c' :: cs)
  | _ => false

theorem replace2_of_not_contains (a b : Char) (r : List Char) :
    ∀ s : List Char, containsPair a b s = false → replace2 a b r s = s := by
  intro s
  induction s using replace2.induct a b r with
  | case1 => intro _; rfl
  | case2 c => intro _; rfl
  | case3 c c' cs hc ih =>
    intro h
    unfold containsPair at h
    rw [if_pos hc] at h
    cases h
  | case4 c c' cs hc ih =>
    intro h
    unfold containsPair at h
    rw [if_neg hc] at h
    unfold replace2
    rw [if_neg hc, ih h]

theorem containsPair_cons2 (a b c c' : Char) (l : List Char)
    (h : ¬(c = a ∧ c' = b)) :
    containsPair a b (c :: c' :: l) = containsPair a b (c' :: l) := by
  simp only [containsPair]
  rw [if_neg h]

theorem containsPair_cons_of_ne (a b c : Char) (l : List Char) (h : c ≠ a) :
    containsPair a b (c :: l) = containsPair a b l := by
  cases l with
  | nil => rfl
  | cons c' cs =>
    simp only [containsPair]
    rw [if_neg (fun hc => h hc.1)]

theorem pair_ne_0a : ∀ x : Nat, x < 256 → x ≠ 10 →
    ¬(hexDigit (x % 256 / 16) = '0' ∧ hexDigit (x % 16) = 'a') := by decide

theorem pair_ne_0d : ∀ x : Nat, x < 256 → x ≠ 13 →
    ¬(hexDigit (x % 256 / 16) = '0' ∧ hexDigit (x % 16) = 'd') := by decide

theorem not_containsPair_0a (b : List Nat) (h : ∀ x ∈ b, x < 256)
    (h10 : (10 : Nat) ∉ b) :
    containsPair '0' 'a' (addSpaces (toHexChars b)) = false := by
  induction b with
  | nil => rfl
  | cons x xs ih =>
    have hx : x < 256 := h x (by simp)
    have hx10 : x ≠ 10 := fun he => h10 (by simp [he])
    have hxs : ∀ y ∈ xs, y < 256 := fun y hy => h y (by simp [hy])
    have hxs10 : (10 : Nat) ∉ xs := fun hm => h10 (by simp [hm])
    unfold toHexChars addSpaces
    rw [containsPair_cons2 _ _ _ _ _ (pair_ne_0a x hx hx10)]
    rw [containsPair_cons2 _ _ _ _ _ (fun hc => absurd hc.2 (by decide))]
    rw [containsPair_cons_of_ne _ _ _ _ (by decide)]
    exact ih hxs hxs10

theorem not_containsPair_0d (b : List Nat) (h : ∀ x ∈ b, x < 256)
    (h13 : (13 : Nat) ∉ b) :
    containsPair '0' 'd' (addSpaces (toHexChars b)) = false := by
  induction b with
  | nil => rfl
  | cons x xs ih =>
    have hx : x < 256 := h x (by simp)
    have hx13 : x ≠ 13 := fun he => h13 (by simp [he])
    have hxs : ∀ y ∈ xs, y < 256 := fun y hy => h y (by simp [hy])
    have hxs13 : (13 : Nat) ∉ xs := fun hm => h13 (by simp [hm])
    unfold toHexChars addSpaces
    rw [containsPair_cons2 _ _ _ _ _ (pair_ne_0d x hx hx13)]
    rw [containsPair_cons2 _ _ _ _ _ (fun hc => absurd hc.2 (by decide))]
    rw [containsPair_cons_of_ne _ _ _ _ (by decide)]
    exact ih hxs hxs13

/-- With the space inserted after every pair, a `"0a"` or `"0d"` match can
only be a whole pair, so without a 0x0A or 0x0D byte neither substitution
fires and the dump is exactly the spaced hex text. -/
theorem hexadecimalStr_spaced (b : List Nat) (h : ∀ x ∈ b, x < 256)
    (h10 : (10 : Nat) ∉ b) (h13 : (13 : Nat) ∉ b) :
    hexadecimalStr b = addSpaces (toHexChars b) := by
  unfold hexadecimalStr
  rw [replace2_of_not_contains _ _ _ _ (not_containsPair_0a b h h10)]
  rw [replace2_of_not_contains _ _ _ _ (not_containsPair_0d b h h13)]

theorem mem_addSpaces_toHexChars {c : Char} :
    ∀ b : List Nat, c ∈ addSpaces (toHexChars b) → c = ' ' ∨ ∃ n, c = hexDigit n := by
  intro b
  induction b with
  | nil => intro h; simp [toHexChars, addSpaces] at h
  | cons x xs ih =>
    intro h
    unfold toHexChars addSpaces at h
    rcases List.mem_cons.mp h with h1 | h
    · exact Or.inr ⟨_, h1⟩
    rcases List.mem_cons.mp h with h1 | h
    · exact Or.inr ⟨_, h1⟩
    rcases List.mem_cons.mp h with h1 | h
    · exact Or.inl h1
    · exact ih h

theorem hexDigit_ne_break (n : Nat) : hexDigit n ≠ '\r' ∧ hexDigit n ≠ '\n' := by
  rcases hexDigit_cases n with h | h | h | h | h | h | h | h | h | h | h | h | h | h | h | h <;>
    (rw [h]; exact (by decide))

theorem hexadecimalStr_no_break (b : List Nat) (h : ∀ x ∈ b, x < 256)
    (h10 : (10 : Nat) ∉ b) (h13 : (13 : Nat) ∉ b) :
    '\r' ∉ hexadecimalStr b ∧ '\n' ∉ hexadecimalStr b := by
  rw [hexadecimalStr_spaced b h h10 h13]
  constructor <;> intro hm
  · rcases mem_addSpaces_toHexChars b hm with h1 | ⟨n, h1⟩
    · cases h1
    · exact (hexDigit_ne_break n).1 h1.symm
  · rcases mem_addSpaces_toHexChars b hm with h1 | ⟨n, h1⟩
    · cases h1
    · exact (hexDigit_ne_break n).2 h1.symm

/-- C5 counterexample (the claim's negation): there is no byte sequence
free of 0x0A and 0x0D bytes whose hex dump contains an injected
carriage-return or line-feed.  The substitution operates on the spaced hex
text, where every two adjacent non-space characters belong to the same
byte's pair, so `"0a"`/`"0d"` can only match an actual 0x0A/0x0D byte. -/
theorem C5_cex_no_misfire :
    ¬ ∃ b : List Nat, (∀ x ∈ b, x < 256) ∧ (10 : Nat) ∉ b ∧ (13 : Nat) ∉ b
      ∧ ('\r' ∈ hexadecimalStr b ∨ '\n' ∈ hexadecimalStr b) := by
  rintro ⟨b, h, h10, h13, hbad⟩
  rcases hbad with hbad | hbad
  · exact (hexadecimalStr_no_break b h h10 h13).1 hbad
  · exact (hexadecimalStr_no_break b h h10 h13).2 hbad

/-- C5 amended: the substitution cannot misfire: for every byte sequence
containing no 0x0A and no 0x0D byte, `hexadecimalStr` equals the plain
spaced hex dump and contains no carriage-return and no line-feed. -/
theorem C5_no_injected_break (b : List Nat) (h : ∀ x ∈ b, x < 256)
    (h10 : (10 : Nat) ∉ b) (h13 : (13 : Nat) ∉ b) :
    hexadecimalStr b = addSpaces (toHexChars b)
    ∧ '\r' ∉ hexadecimalStr b ∧ '\n' ∉ hexadecimalStr b :=
  ⟨hexadecimalStr_spaced b h h10 h13, hexadecimalStr_no_break b h h10 h13⟩

/-- C5 witness: the bytes `[0x00, 0xA0]` — whose concatenated hex text
`"00a0"` contains the substring `"0a"` — produce the dump `"00 a0 "`, with
no injected break. -/
theorem C5_no_injected_break_witness :
    hexadecimalStr [0x00, 0xA0] = addSpaces (toHexChars [0x00, 0xA0])
    ∧ '\r' ∉ hexadecimalStr [0x00, 0xA0] ∧ '\n' ∉ hexadecimalStr [0x00, 0xA0] :=
  C5_no_injected_break [0x00, 0xA0] (by decide) (by decide) (by decide)

theorem toNat_ofNat_valid {n : Nat} (h : n.isValidChar) : (Char.ofNat n).toNat = n := by
  rw [Char.ofNat, dif_pos h]
  rfl

theorem encodeUtf8_cons (c : Char) (s : List Char) :
    encodeUtf8 (c :: s) = encodeUtf8One c.toNat ++ encodeUtf8 s := by
  simp [encodeUtf8]

theorem fromUtf8Fuel_irrel : ∀ f : Nat, ∀ l : List Nat, l.length ≤ f →
    fromUtf8Fuel f l = fromUtf8Fuel l.length l := by
  intro f
  induction f using Nat.strong_induction_on with
  | _ f ih =>
    intro l hl
    match f, l with
    | _, [] => simp only [fromUtf8Fuel]
    | 0, b :: bs => simp at hl
    | g + 1, b :: bs =>
      simp only [List.length_cons] at hl ⊢
      cases hd : decodeOne b bs with
      | none =>
        simp only [fromUtf8Fuel, hd]
        rw [ih g (by omega) bs (by omega)]
      | some p =>
        obtain ⟨cp, rest⟩ := p
        have h1 := decodeOne_rest_length hd
        simp only [fromUtf8Fuel, hd]
        rw [ih g (by omega) rest (by omega), ih bs.length (by omega) rest (by omega)]

theorem decodeUtf8Fuel_irrel : ∀ f : Nat, ∀ l : List Nat, l.length ≤ f →
    decodeUtf8Fuel f l = decodeUtf8Fuel l.length l := by
  intro f
  induction f using Nat.strong_induction_on with
  | _ f ih =>
    intro l hl
    match f, l with
    | _, [] => simp only [decodeUtf8Fuel]
    | 0, b :: bs => simp at hl
    | g + 1, b :: bs =>
      simp only [List.length_cons] at hl ⊢
      cases hd : decodeOne b bs with
      | none => simp only [decodeUtf8Fuel, hd]
      | some p =>
        obtain ⟨cp, rest⟩ := p
        have h1 := decodeOne_rest_length hd
        simp only [decodeUtf8Fuel, hd]
        rw [ih g (by omega) rest (by omega), ih bs.length (by omega) rest (by omega)]

theorem fromUtf8Raw_cons_ok {b : Nat} {bs : List Nat} {cp : Nat} {rest : List Nat}
    (h : decodeOne b bs = some (cp, rest)) :
    fromUtf8Raw (b :: bs) = Char.ofNat cp :: fromUtf8Raw rest := by
  unfold fromUtf8Raw
  simp only [List.length_cons, fromUtf8Fuel, h]
  rw [fromUtf8Fuel_irrel bs.length rest (decodeOne_rest_length h)]

theorem fromUtf8Raw_cons_bad {b : Nat} {bs : List Nat} (h : decodeOne b bs = none) :
    fromUtf8Raw (b :: bs) = Char.ofNat 0xFFFD :: fromUtf8Raw bs := by
  unfold fromUtf8Raw
  simp only [List.length_cons, fromUtf8Fuel, h]

theorem decodeUtf8_cons_ok {b : Nat} {bs : List Nat} {cp : Nat} {rest : List Nat}
    (h : decodeOne b bs = some (cp, rest)) :
    decodeUtf8 (b :: bs) = (decodeUtf8 rest).map (Char.ofNat cp :: ·) := by
  unfold decodeUtf8
  simp only [List.length_cons, decodeUtf8Fuel, h]
  rw [decodeUtf8Fuel_irrel bs.length rest (decodeOne_rest_length h)]

theorem decodeUtf8_cons_bad {b : Nat} {bs : List Nat} (h : decodeOne b bs = none) :
    decodeUtf8 (b :: bs) = none := by
  unfold decodeUtf8
  simp only [List.length_cons, decodeUtf8Fuel, h]

/-- Inversion of one decoding step: the decoded code point is a valid
scalar value, and re-encoding it reproduces exactly the bytes the step
consumed. -/
theorem decodeOne_inv {b : Nat} {bs : List Nat} {cp : Nat} {rest : List Nat}
    (h : decodeOne b bs = some (cp, rest)) :
    Nat.isValidChar cp ∧ encodeUtf8One cp ++ rest = b :: bs := by
  unfold decodeOne at h
  repeat' split at h
  all_goals
    first
      | exact Option.noConfusion h
      | (injection h with h1
         injection h1 with h2 h3
         subst h2
         subst h3
         refine ⟨by simp only [Nat.isValidChar]; omega, ?_⟩
         unfold encodeUtf8One
         split_ifs <;>
           first
             | (exfalso; omega)
             | (simp only [List.cons_append, List.nil_append, List.cons.injEq,
                 eq_self_iff_true, and_true] <;> omega))

/-- Soundness of the strict decoder: on valid UTF-8 input, re-encoding the
decoded characters reproduces the input bytes exactly, and the lossy
decoder `fromUtf8` agrees with the strict one. -/
theorem decodeUtf8_spec_aux : ∀ n : Nat, ∀ b : List Nat, b.length ≤ n →
    ∀ s : List Char, decodeUtf8 b = some s → encodeUtf8 s = b ∧ fromUtf8Raw b = s := by
  intro n
  induction n with
  | zero =>
    intro b hb s h
    have hnil : b = [] := List.eq_nil_of_length_eq_zero (by omega)
    subst hnil
    simp only [decodeUtf8, decodeUtf8Fuel, Option.some.injEq] at h
    subst h
    exact ⟨rfl, rfl⟩
  | succ n ih =>
    intro b hb s h
    cases b with
    | nil =>
      simp only [decodeUtf8, decodeUtf8Fuel, Option.some.injEq] at h
      subst h
      exact ⟨rfl, rfl⟩
    | cons x bs =>
      cases hd : decodeOne x bs with
      | none =>
        rw [decodeUtf8_cons_bad hd] at h
        exact Option.noConfusion h
      | some p =>
        obtain ⟨cp, rest⟩ := p
        rw [decodeUtf8_cons_ok hd, Option.map_eq_some'] at h
        obtain ⟨s', hdec, rfl⟩ := h
        have hrl : rest.length ≤ n := by
          have := decodeOne_rest_length hd
          simp only [List.length_cons] at hb
          omega
        obtain ⟨henc, hfrom⟩ := ih rest hrl s' hdec
        obtain ⟨hval, hbytes⟩ := decodeOne_inv hd
        constructor
        · rw [encodeUtf8_cons, toNat_ofNat_valid hval, henc, hbytes]
        · rw [fromUtf8Raw_cons_ok hd, hfrom]

theorem decodeUtf8_spec (b : List Nat) (s : List Char) (h : decodeUtf8 b = some s) :
    encodeUtf8 s = b ∧ fromUtf8Raw b = s :=
  decodeUtf8_spec_aux b.length b (Nat.le_refl _) s h

/-- C8 counterexample: the byte sequence EF BB BF 68 is valid UTF-8 (the
strict decoder accepts it, as U+FEFF followed by 'h'), yet
`QString::fromUtf8` skips the leading byte-order mark, so the round-trip
check in `plainTextStr` fails and the Latin-1 fallback is taken:
re-encoding the result yields different bytes, not the input. -/
theorem C8_cex_bom_fallback :
    decodeUtf8 [0xEF, 0xBB, 0xBF, 0x68] = some [Char.ofNat 0xFEFF, 'h']
    ∧ plainTextStr [0xEF, 0xBB, 0xBF, 0x68] = fromLatin1 [0xEF, 0xBB, 0xBF, 0x68]
    ∧ encodeUtf8 (plainTextStr [0xEF, 0xBB, 0xBF, 0x68])
        = [0xC3, 0xAF, 0xC2, 0xBB, 0xC2, 0xBF, 0x68]
    ∧ encodeUtf8 (plainTextStr [0xEF, 0xBB, 0xBF, 0x68])
        ≠ [0xEF, 0xBB, 0xBF, 0x68] := by decide

/-- C8 amended: for every valid UTF-8 byte sequence that does not begin
with the UTF-8 byte-order mark EF BB BF, `plainTextStr` takes the UTF-8
branch (no Latin-1 fallback) and returns the decoded characters, and
re-encoding the result to UTF-8 yields exactly the input bytes.  (On a
BOM-prefixed input `QString::fromUtf8` skips the mark, the round-trip
check fails, and the Latin-1 fallback alters the bytes on re-encode, as
the counterexample shows.) -/
theorem C8_plaintext_roundtrip (b : List Nat) (s : List Char)
    (h : decodeUtf8 b = some s) (hbom : skipBOM b = b) :
    plainTextStr b = s ∧ encodeUtf8 (plainTextStr b) = b := by
  obtain ⟨henc, hfrom⟩ := decodeUtf8_spec b s h
  have hfu : fromUtf8 b = s := by
    unfold fromUtf8
    rw [hbom]
    exact hfrom
  have hps : plainTextStr b = s := by
    unfold plainTextStr
    rw [hfu]
    show (if encodeUtf8 s = b then s else fromLatin1 b) = s
    rw [if_pos henc]
  exact ⟨hps, by rw [hps, henc]⟩

/-- C8 witness: the BOM-free two-byte UTF-8 sequence for `"hé"`
round-trips. -/
theorem C8_plaintext_roundtrip_witness :
    plainTextStr [104, 195, 169] = ['h', 'é']
    ∧ encodeUtf8 (plainTextStr [104, 195, 169]) = [104, 195, 169] :=
  C8_plaintext_roundtrip [104, 195, 169] ['h', 'é'] (by decide) (by decide)

theorem getLastD_concat' : ∀ (ls : List (List Char)) (x d : List Char),
    (ls ++ [x]).getLastD d = x := by
  intro ls
  induction ls with
  | nil => intro x d; rfl
  | cons y ys ih =>
    intro x d
    rw [List.cons_append, List.getLastD_cons]
    exact ih x y

theorem getLastD_mem : ∀ (xs : List (List Char)) (x : List Char),
    xs.getLastD x ∈ x :: xs := by
  intro xs
  induction xs with
  | nil => intro x; simp
  | cons y ys ih =>
    intro x
    rw [List.getLastD_cons]
    rcases List.mem_cons.mp (ih y) with h | h
    · rw [h]
      exact List.mem_cons_of_mem x (List.mem_cons_self y ys)
    · exact List.mem_cons_of_mem x (List.mem_cons_of_mem y h)

theorem lastLine_mem {lines : List (List Char)} (h : lines ≠ []) :
    lastLine lines ∈ lines := by
  cases lines with
  | nil => exact absurd rfl h
  | cons a as =>
    unfold lastLine
    rw [List.getLastD_cons]
    exact getLastD_mem as a

theorem lastLine_concat (ls : List (List Char)) (x : List Char) :
    lastLine (ls ++ [x]) = x :=
  getLastD_concat' ls x []

theorem lastLine_setLast (lines : List (List Char)) (x : List Char) :
    lastLine (setLast lines x) = x :=
  lastLine_concat _ x

theorem setLast_ne_nil (lines : List (List Char)) (x : List Char) :
    setLast lines x ≠ [] := by
  unfold setLast
  simp

theorem mem_setLast {l' : List Char} {lines : List (List Char)} {x : List Char}
    (h : l' ∈ setLast lines x) : l' ∈ lines ∨ l' = x := by
  unfold setLast at h
  rcases List.mem_append.mp h with h | h
  · exact Or.inl ((List.dropLast_sublist lines).subset h)
  · simp only [List.mem_singleton] at h
    exact Or.inr h

/-- The timestamp discipline of a single line: the timestamp's first
character occurs at most once, and when it occurs the line starts with
the whole timestamp string. -/
def goodLine (t : Char) (rest : List Char) (l : List Char) : Prop :=
  l.count t ≤ 1 ∧ (t ∈ l → (t :: rest) <+: l)

theorem goodLine_nil (t : Char) (rest : List Char) : goodLine t rest [] := by
  constructor
  · simp
  · intro h; exact absurd h (by simp)

theorem goodLine_ts {t : Char} {rest : List Char} (ht : t ∉ rest) :
    goodLine t rest (t :: rest) := by
  constructor
  · rw [List.count_cons_self, List.count_eq_zero.mpr ht]
  · intro _
    exact List.prefix_rfl

theorem goodLine_append_char {t c : Char} {rest l : List Char}
    (h : goodLine t rest l) (hc : c ≠ t) : goodLine t rest (l ++ [c]) := by
  obtain ⟨hcount, hpre⟩ := h
  constructor
  · rw [List.count_append]
    have hz : List.count t [c] = 0 := List.count_eq_zero.mpr (by simp [Ne.symm hc])
    omega
  · intro ht
    have htl : t ∈ l := by
      rcases List.mem_append.mp ht with h1 | h1
      · exact h1
      · exact absurd (List.mem_singleton.mp h1).symm hc
    exact (hpre htl).trans (List.prefix_append l [c])

theorem mem_replace2 (a b : Char) (r : List Char) (hr : ∀ c ∈ r, c ∈ [a, b]) :
    ∀ s : List Char, ∀ c ∈ replace2 a b r s, c ∈ s := by
  intro s
  induction s using replace2.induct a b r with
  | case1 =>
    intro c hc
    simp only [replace2] at hc
    exact absurd hc (List.not_mem_nil c)
  | case2 c0 => intro c hc; exact hc
  | case3 c0 c0' cs hc0 ih =>
    obtain ⟨rfl, rfl⟩ := hc0
    intro c hc
    unfold replace2 at hc
    rw [if_pos ⟨rfl, rfl⟩] at hc
    rcases List.mem_append.mp hc with h | h
    · rcases List.mem_cons.mp (hr c h) with h1 | h1
      · simp [h1]
      · simp only [List.mem_singleton] at h1
        simp [h1]
    · exact List.mem_cons_of_mem _ (List.mem_cons_of_mem _ (ih c h))
  | case4 c0 c0' cs hc0 ih =>
    intro c hc
    unfold replace2 at hc
    rw [if_neg hc0] at hc
    rcases List.mem_cons.mp hc with h | h
    · simp [h]
    · exact List.mem_cons_of_mem _ (ih c h)

theorem appendLoop_inv (t : Char) (rest : List Char) (ht : t ∉ rest)
    (tsStr : List Char) (hts : tsStr = t :: rest ∨ tsStr = []) :
    ∀ (cs : List Char) (lines : List (List Char)) (flag : Bool),
      (∀ c ∈ cs, c ≠ t) →
      lines ≠ [] →
      (∀ l ∈ lines, goodLine t rest l) →
      (flag = false → lastLine lines = []) →
      (appendLoop tsStr cs lines flag).1 ≠ []
      ∧ (∀ l ∈ (appendLoop tsStr cs lines flag).1, goodLine t rest l)
      ∧ ((appendLoop tsStr cs lines flag).2 = false →
          lastLine (appendLoop tsStr cs lines flag).1 = []) := by
  intro cs
  induction cs with
  | nil =>
    intro lines flag _ h1 h2 h3
    simp only [appendLoop]
    exact ⟨h1, h2, h3⟩
  | cons c cs ih =>
    intro lines flag hcs h1 h2 h3
    have hct : c ≠ t := hcs c (by simp)
    have hcs' : ∀ c' ∈ cs, c' ≠ t := fun c' hc' => hcs c' (by simp [hc'])
    have hgts : goodLine t rest tsStr := by
      rcases hts with h | h
      · rw [h]; exact goodLine_ts ht
      · rw [h]; exact goodLine_nil t rest
    cases flag with
    | false =>
      have h30 : lastLine lines = [] := h3 rfl
      have hmem1 : ∀ l ∈ setLast lines tsStr, goodLine t rest l := by
        intro l hl
        rcases mem_setLast hl with h | h
        · exact h2 l h
        · rw [h]; exact hgts
      simp only [appendLoop, Bool.false_eq_true, if_false, h30, List.nil_append]
      by_cases hnl : c = '\n' ∨ c = '\r'
      · rw [if_pos hnl]
        apply ih (setLast lines tsStr ++ [[]]) false hcs' (by simp)
        · intro l hl
          rcases List.mem_append.mp hl with h | h
          · exact hmem1 l h
          · simp only [List.mem_singleton] at h
            rw [h]
            exact goodLine_nil t rest
        · intro _
          exact lastLine_concat _ []
      · rw [if_neg hnl]
        apply ih _ true hcs' (setLast_ne_nil _ _)
        · intro l hl
          rcases mem_setLast hl with h | h
          · exact hmem1 l h
          · rw [h, lastLine_setLast]
            exact goodLine_append_char hgts hct
        · intro hcontr
          exact absurd hcontr (by simp)
    | true =>
      simp only [appendLoop, eq_self_iff_true, if_true]
      by_cases hnl : c = '\n' ∨ c = '\r'
      · rw [if_pos hnl]
        apply ih (lines ++ [[]]) false hcs' (by simp)
        · intro l hl
          rcases List.mem_append.mp hl with h | h
          · exact h2 l h
          · simp only [List.mem_singleton] at h
            rw [h]
            exact goodLine_nil t rest
        · intro _
          exact lastLine_concat _ []
      · rw [if_neg hnl]
        apply ih _ true hcs' (setLast_ne_nil _ _)
        · intro l hl
          rcases mem_setLast hl with h | h
          · exact h2 l h
          · rw [h]
            exact goodLine_append_char (h2 _ (lastLine_mem h1)) hct
        · intro hcontr
          exact absurd hcontr (by simp)

/-- Console state invariant for the timestamp discipline: every line is
disciplined, and when the flag is down the open line is empty. -/
def stInv (t : Char) (rest : List Char) (st : ConsoleState) : Prop :=
  (∀ l ∈ st.lines, goodLine t rest l)
  ∧ (st.timestampAdded = false → st.lines = [] ∨ lastLine st.lines = [])

theorem append_inv (t : Char) (rest : List Char) (ht : t ∉ rest)
    (s : List Char) (hs : t ∉ s) (wt : Bool)
    (st : ConsoleState) (hst : stInv t rest st) :
    stInv t rest (append (t :: rest) s wt st).1 := by
  by_cases hnil : s = []
  · have : append (t :: rest) s wt st = (st, []) := by
      unfold append
      rw [if_pos hnil]
    rw [this]
    exact hst
  · have hdata : ∀ c ∈ replace2 '\r' '\n' ['\n'] s, c ≠ t := by
      intro c hc he
      subst he
      exact hs (mem_replace2 '\r' '\n' ['\n'] (by decide) s c hc)
    have hshape : (append (t :: rest) s wt st).1
        = { st with
            lines := (appendLoop (if wt then t :: rest else [])
              (replace2 '\r' '\n' ['\n'] s)
              (if st.lines.length = 0 then st.lines ++ [[]] else st.lines)
              st.timestampAdded).1,
            timestampAdded := (appendLoop (if wt then t :: rest else [])
              (replace2 '\r' '\n' ['\n'] s)
              (if st.lines.length = 0 then st.lines ++ [[]] else st.lines)
              st.timestampAdded).2 } := by
      unfold append
      rw [if_neg hnil]
    rw [hshape]
    have hts : (if wt then t :: rest else []) = t :: rest
        ∨ (if wt then t :: rest else []) = [] := by
      cases wt
      · exact Or.inr rfl
      · exact Or.inl rfl
    have hl0 : (if st.lines.length = 0 then st.lines ++ [[]] else st.lines) ≠ [] := by
      by_cases hz : st.lines.length = 0
      · rw [if_pos hz]; simp
      · rw [if_neg hz]
        intro he
        rw [he] at hz
        exact hz rfl
    have hl0mem : ∀ l ∈ (if st.lines.length = 0 then st.lines ++ [[]] else st.lines),
        goodLine t rest l := by
      by_cases hz : st.lines.length = 0
      · rw [if_pos hz]
        intro l hl
        rcases List.mem_append.mp hl with h | h
        · exact hst.1 l h
        · simp only [List.mem_singleton] at h
          rw [h]
          exact goodLine_nil t rest
      · rw [if_neg hz]
        exact hst.1
    have hl0last : st.timestampAdded = false →
        lastLine (if st.lines.length = 0 then st.lines ++ [[]] else st.lines) = [] := by
      intro hf
      by_cases hz : st.lines.length = 0
      · rw [if_pos hz]
        have : st.lines = [] := List.eq_nil_of_length_eq_zero hz
        rw [this]
        rfl
      · rw [if_neg hz]
        rcases hst.2 hf with h | h
        · rw [h] at hz
          exact absurd rfl hz
        · exact h
    obtain ⟨hA, hB, hC⟩ := appendLoop_inv t rest ht _ hts
      (replace2 '\r' '\n' ['\n'] s) _ st.timestampAdded hdata hl0 hl0mem hl0last
    exact ⟨hB, fun hf => Or.inr (hC hf)⟩

/-- A sequence of `Console::append` calls, each a pair of the text and the
`addTimestamp` argument. -/
def appendSeq (ts : List Char) (calls : List (List Char × Bool))
    (st : ConsoleState) : ConsoleState :=
  calls.foldl (fun s p => (append ts p.1 p.2 s).1) st

theorem appendSeq_inv (t : Char) (rest : List Char) (ht : t ∉ rest) :
    ∀ (calls : List (List Char × Bool)) (st : ConsoleState),
      (∀ p ∈ calls, t ∉ p.1) → stInv t rest st →
      stInv t rest (appendSeq (t :: rest) calls st) := by
  intro calls
  induction calls with
  | nil => intro st _ h; exact h
  | cons p ps ih =>
    intro st hd hst
    exact ih _ (fun q hq => hd q (by simp [hq]))
      (append_inv t rest ht p.1 (hd p (by simp)) p.2 st hst)

/-- C2 amended: across every sequence of `appendText` calls alone (no echo
send interleaved), starting from the initial console state, every line of
the scrollback — closed or open — contains the timestamp's first
character at most once, and whenever it contains it the line starts with
the full timestamp string.  (Formal proviso: the timestamp's first
character does not occur in the rest of the timestamp nor in any appended
data, so that occurrences of that character identify stamped timestamps.) -/
theorem C2_timestamp_once_at_start (t : Char) (rest : List Char)
    (calls : List (List Char × Bool)) (ht : t ∉ rest)
    (hdata : ∀ p ∈ calls, t ∉ p.1) :
    ∀ l ∈ (appendSeq (t :: rest) calls initialConsole).lines,
      l.count t ≤ 1 ∧ (t ∈ l → (t :: rest) <+: l) := by
  have hinit : stInv t rest initialConsole := by
    constructor
    · intro l hl
      exact absurd hl (by simp [initialConsole])
    · intro _
      exact Or.inl rfl
  exact (appendSeq_inv t rest ht calls initialConsole hdata hinit).1

/-- C2 witness: the amended statement at the timestamp `"T -> "` and the
single call `appendText("hello\nworld", true)`. -/
theorem C2_timestamp_once_at_start_witness :
    'T' ∉ " -> ".toList
    ∧ (∀ p ∈ [("hello\nworld".toList, true)], 'T' ∉ p.1)
    ∧ ∀ l ∈ (appendSeq ('T' :: " -> ".toList) [("hello\nworld".toList, true)]
          initialConsole).lines,
        l.count 'T' ≤ 1 ∧ ('T' ∈ l → ('T' :: " -> ".toList) <+: l) :=
  ⟨by decide, by decide,
   C2_timestamp_once_at_start 'T' " -> ".toList [("hello\nworld".toList, true)]
     (by decide) (by decide)⟩
